import Mathlib

/-!
Shallow embedding of the `vmcircbuffer` crate's coordination engine
(`src/generic.rs`) and of the POSIX double-mapped-buffer construction
(`src/double_mapped_buffer/unix.rs`, `double_mapped_buffer.rs`).

Modelling conventions:
* The shared coordination record `State` (writer offset, generation bit,
  `writer_done`, slab of readers) becomes `EngineState`.  The writer handle's
  `last_space` shadow and each reader handle's `last_space` shadow are stored
  alongside the shared record (there is exactly one writer handle, and one
  reader handle per slab entry, so this is a bijective repackaging).
* The abstract `Notifier` trait is modelled freely: we count `arm` and
  `notify` invocations per notifier.  The abstract `Metadata` trait is also
  modelled freely: `add` and `consume` invocations are recorded as traces and
  `get` returns the recorded `add` trace.
* The double mapping is modelled by `sliceWithOffset`: the byte region `buf`
  (of length `capacity`) appears twice back to back, and
  `slice_with_offset(o)` is the window of `capacity` items starting at `o`
  inside `buf ++ buf`.
* `usize` becomes `Nat`; the guarded subtractions in the span formulas never
  underflow under their guards, exactly as in the source.
* Panics (`assert!`) become `Except.error` carrying the panic message.
* The slab of readers becomes a `List`; a reader id is an index.  (The claims
  under verification never drop readers, where slab id reuse would differ
  from list indices.)
-/

namespace Vmcircbuffer

/-- Per-reader record: the `ReaderState` of `generic.rs` (generation bit,
offset, the two notifiers, metadata), extended with the reader handle's
`last_space` shadow.  Notifiers are modelled by invocation counters and
metadata by invocation traces. -/
structure ReaderState (Tag : Type) where
  ab : Bool
  offset : Nat
  readerNotifies : Nat
  readerArms : Nat
  writerNotifies : Nat
  writerArms : Nat
  metaAdds : List (Nat × List Tag)
  metaConsumes : List Nat
  lastSpace : Nat
  deriving Repr, DecidableEq

/-- The mutex-protected shared `State` of `generic.rs`, plus the writer
handle's `last_space` shadow and the buffer capacity (held by the
`DoubleMappedBuffer` in the source). -/
structure EngineState (Tag : Type) where
  capacity : Nat
  writerOffset : Nat
  writerAb : Bool
  writerDone : Bool
  readers : List (ReaderState Tag)
  writerLastSpace : Nat
  deriving Repr, DecidableEq

/-- The per-reader writable-span expression of `Writer::space_and_offset`. -/
def writerSpace (capacity wOff : Nat) (wAb : Bool) (rOff : Nat) (rAb : Bool) : Nat :=
  if wOff > rOff then rOff + capacity - wOff
  else if wOff < rOff then rOff - wOff
  else if rAb = wAb then capacity
  else 0

/-- The readable-span expression of `Reader::space_and_offset_and_meta`
(also recomputed per reader inside `Writer::produce`). -/
def readerSpace (capacity wOff : Nat) (wAb : Bool) (rOff : Nat) (rAb : Bool) : Nat :=
  if rOff > wOff then wOff + capacity - rOff
  else if rOff < wOff then wOff - rOff
  else if rAb = wAb then 0
  else capacity

/-- The window of `capacity` items starting at `offset` in the doubled
mapping: `DoubleMappedBuffer::slice_with_offset`.  `buf` is the backing
region (first mapping), `buf ++ buf` the doubled address range. -/
def sliceWithOffset {T : Type} (buf : List T) (capacity offset : Nat) : List T :=
  ((buf ++ buf).drop offset).take capacity

/-- The reader loop of `Writer::space_and_offset`: fold `min` over the
per-reader spans, breaking at the first reader with span `0` (and arming that
reader's writer-notifier when `arm` is set). -/
def spaceLoop {Tag : Type} (capacity wOff : Nat) (wAb : Bool) (arm : Bool) :
    List (ReaderState Tag) → Nat → Nat × List (ReaderState Tag)
  | [], space => (space, [])
  | r :: rs, space =>
    let s := writerSpace capacity wOff wAb r.offset r.ab
    let space' := min space s
    if s = 0 then
      if arm then (space', { r with writerArms := r.writerArms + 1 } :: rs)
      else (space', r :: rs)
    else
      let rest := spaceLoop capacity wOff wAb arm rs space'
      (rest.1, r :: rest.2)

/-- `Writer::space_and_offset`: returns the writable span, the writer offset,
and the state (arming may have changed a reader's writer-notifier). -/
def Writer.spaceAndOffset {Tag : Type} (st : EngineState Tag) (arm : Bool) :
    Nat × Nat × EngineState Tag :=
  let res := spaceLoop st.capacity st.writerOffset st.writerAb arm st.readers st.capacity
  (res.1, st.writerOffset, { st with readers := res.2 })

/-- `Writer::slice`: window of the writable span at the writer offset; records
the span in the writer's `last_space` shadow. -/
def Writer.slice {T Tag : Type} (buf : List T) (st : EngineState Tag) (arm : Bool) :
    List T × EngineState Tag :=
  let res := Writer.spaceAndOffset st arm
  ((sliceWithOffset buf st.capacity res.2.1).take res.1,
   { res.2.2 with writerLastSpace := res.1 })

/-- `Writer::produce`: no-op at `n = 0`; panic (`Except.error`) when `n`
exceeds the `last_space` shadow; otherwise record a `metadata.add` call (with
the reader's pre-advance backlog as offset) and a reader-notifier `notify` for
every reader, then flip `w_ab` when the raw sum reaches the capacity and
advance `w_off` modulo the capacity. -/
def Writer.produce {Tag : Type} (st : EngineState Tag) (n : Nat) (meta : List Tag) :
    Except String (EngineState Tag) :=
  if n = 0 then .ok st
  else if st.writerLastSpace < n then .error "vmcircbuffer: produced too much"
  else
    let readers := st.readers.map (fun r =>
      let space := readerSpace st.capacity st.writerOffset st.writerAb r.offset r.ab
      { r with
          metaAdds := r.metaAdds ++ [(space, meta)]
          readerNotifies := r.readerNotifies + 1 })
    .ok { st with
            writerLastSpace := st.writerLastSpace - n
            readers := readers
            writerAb := if st.capacity ≤ st.writerOffset + n then !st.writerAb else st.writerAb
            writerOffset := (st.writerOffset + n) % st.capacity }

/-- `impl Drop for Writer`: set `writer_done` and call `notify` on every
reader's reader-notifier. -/
def Writer.dropWriter {Tag : Type} (st : EngineState Tag) : EngineState Tag :=
  { st with
      writerDone := true
      readers := st.readers.map (fun r => { r with readerNotifies := r.readerNotifies + 1 }) }

/-- `Writer::add_reader`: insert a fresh reader whose cursor copies the
current writer cursor; returns the new state and the fresh id. -/
def Writer.addReader {Tag : Type} (st : EngineState Tag) : EngineState Tag × Nat :=
  ({ st with
      readers := st.readers ++
        [{ ab := st.writerAb, offset := st.writerOffset,
           readerNotifies := 0, readerArms := 0, writerNotifies := 0, writerArms := 0,
           metaAdds := [], metaConsumes := [], lastSpace := 0 }] },
   st.readers.length)

/-- Apply `f` to reader `i` of the slab (identity when `i` is out of range;
the source's `get_unchecked` always receives a live id). -/
def setReader {Tag : Type} (st : EngineState Tag) (i : Nat)
    (f : ReaderState Tag → ReaderState Tag) : EngineState Tag :=
  match st.readers.get? i with
  | none => st
  | some r => { st with readers := st.readers.set i (f r) }

/-- `Reader::space_and_offset_and_meta`: readable span, reader offset,
`writer_done`, metadata snapshot (`meta.get()`, modelled as the recorded
`add` trace); arms the reader-notifier when the span is `0` and `arm` is
set. -/
def Reader.spaceAndOffsetAndMeta {Tag : Type} (st : EngineState Tag) (i : Nat) (arm : Bool) :
    Nat × Nat × Bool × List (Nat × List Tag) × EngineState Tag :=
  match st.readers.get? i with
  | none => (0, 0, st.writerDone, [], st)
  | some r =>
    let space := readerSpace st.capacity st.writerOffset st.writerAb r.offset r.ab
    let st' :=
      if space = 0 ∧ arm then
        { st with readers := st.readers.set i { r with readerArms := r.readerArms + 1 } }
      else st
    (space, r.offset, st.writerDone, r.metaAdds, st')

/-- `Reader::slice`: `None` when the span is `0` and the writer is done,
otherwise the window of the readable span at the reader offset together with
the metadata snapshot; records the span in the reader's `last_space`
shadow. -/
def Reader.slice {T Tag : Type} (buf : List T) (st : EngineState Tag) (i : Nat) (arm : Bool) :
    Option (List T × List (Nat × List Tag)) × EngineState Tag :=
  let res := Reader.spaceAndOffsetAndMeta st i arm
  let space := res.1
  let offset := res.2.1
  let done := res.2.2.1
  let tags := res.2.2.2.1
  let st' := setReader res.2.2.2.2 i (fun r => { r with lastSpace := space })
  if space = 0 ∧ done then (none, st')
  else (some ((sliceWithOffset buf st.capacity offset).take space, tags), st')

/-- `Reader::consume`: no-op at `n = 0`; panic (`Except.error`) when `n`
exceeds the reader's `last_space` shadow; otherwise record `meta.consume(n)`,
flip `r_ab` when the raw sum reaches the capacity, advance `r_off` modulo the
capacity, and record a `notify` on the writer-notifier. -/
def Reader.consume {Tag : Type} (st : EngineState Tag) (i : Nat) (n : Nat) :
    Except String (EngineState Tag) :=
  if n = 0 then .ok st
  else
    match st.readers.get? i with
    | none => .error "invalid reader id"
    | some r =>
      if r.lastSpace < n then .error "vmcircbuffer: consumed too much!"
      else
        .ok { st with
                readers := st.readers.set i
                  { r with
                      lastSpace := r.lastSpace - n
                      metaConsumes := r.metaConsumes ++ [n]
                      ab := if st.capacity ≤ r.offset + n then !r.ab else r.ab
                      offset := (r.offset + n) % st.capacity
                      writerNotifies := r.writerNotifies + 1 } }

/-- The state right after `Circular::with_capacity`: writer cursor at the
origin, no readers, `last_space` zero. -/
def initState (Tag : Type) (capacity : Nat) : EngineState Tag :=
  { capacity := capacity
    writerOffset := 0
    writerAb := false
    writerDone := false
    readers := []
    writerLastSpace := 0 }

/-! ## Double-mapped-buffer construction (`double_mapped_buffer/unix.rs`) -/

/-- `DoubleMappedBufferError` of `double_mapped_buffer/mod.rs`. -/
inductive DmError where
  | close | unmapSecond | mapSecond | mapFirst | placeholder
  | truncate | unlink | create | alignment
  deriving Repr, DecidableEq

/-- Exit condition of the size-search loop of `DoubleMappedBufferImpl::new_try`:
`size` is large enough for `min_items` items and an exact multiple of the item
size. -/
def sizeOk (itemSize minItems size : Nat) : Prop :=
  minItems * itemSize ≤ size ∧ size % itemSize = 0

instance (itemSize minItems size : Nat) : Decidable (sizeOk itemSize minItems size) :=
  inferInstanceAs (Decidable (_ ∧ _))

/-- The loop `size = ps; while size < min_items*item_size || size % item_size != 0
{ size += ps }` terminates: some multiple `(k+1)*ps` passes the exit
condition (take `k + 1 = itemSize * (minItems + 1)`).  A `def` because the
size-search definitions below consume this existence proof. -/
def sizeOk_exists (ps itemSize minItems : Nat) (hps : 0 < ps) (hit : 0 < itemSize) :
    ∃ k, sizeOk itemSize minItems ((k + 1) * ps) := by
  refine ⟨itemSize * (minItems + 1) - 1, ?_, ?_⟩
  · have h1 : itemSize * (minItems + 1) - 1 + 1 = itemSize * (minItems + 1) := by
      have : 0 < itemSize * (minItems + 1) := Nat.mul_pos hit (Nat.succ_pos _)
      omega
    rw [h1]
    calc minItems * itemSize ≤ itemSize * (minItems + 1) * 1 := by
          rw [Nat.mul_one]; nlinarith
      _ ≤ itemSize * (minItems + 1) * ps := Nat.mul_le_mul_left _ hps
  · have h1 : itemSize * (minItems + 1) - 1 + 1 = itemSize * (minItems + 1) := by
      have : 0 < itemSize * (minItems + 1) := Nat.mul_pos hit (Nat.succ_pos _)
      omega
    rw [h1, Nat.mul_assoc]
    exact Nat.mul_mod_right itemSize _

/-- Value of the size-search loop: starting at `ps` and stepping by `ps`, the
loop returns the first `(k+1)*ps` passing the exit condition, i.e. the least
such multiple. -/
def foundSize (ps itemSize minItems : Nat)
    (h : ∃ k, sizeOk itemSize minItems ((k + 1) * ps)) : Nat :=
  (Nat.find h + 1) * ps

/-- The backing size chosen by `new_try` for positive page granularity and
item size. -/
def chosenSize (ps itemSize minItems : Nat) (hps : 0 < ps) (hit : 0 < itemSize) : Nat :=
  foundSize ps itemSize minItems (sizeOk_exists ps itemSize minItems hps hit)

/-- `DoubleMappedBufferImpl::capacity`: `size_bytes / item_size`. -/
def implCapacity (sizeBytes itemSize : Nat) : Nat := sizeBytes / itemSize

/-- Rust remainder on `usize`: panics (modelled as `Except.error`) when the
divisor is zero. -/
def checkedRem (a b : Nat) : Except String Nat :=
  if b = 0 then .error "attempt to calculate the remainder with a divisor of zero"
  else .ok (a % b)

/-- One evaluation of the size-search loop guard
`size < min_items * item_size || size % item_size != 0`, with Rust's
short-circuit `||` and panicking `%`. -/
def loopGuard (itemSize minItems size : Nat) : Except String Bool :=
  if size < minItems * itemSize then .ok true
  else (checkedRem size itemSize).map (fun r => decide (r ≠ 0))

/-- The size-search loop of `DoubleMappedBufferImpl::new_try`, with panic
propagation: when `item_size = 0` the very first guard evaluation (at
`size = ps`) hits the unguarded `size % item_size` and panics; otherwise the
loop returns `foundSize`. -/
def sizeSearch (ps itemSize minItems : Nat) (hps : 0 < ps) : Except String Nat :=
  if h : itemSize = 0 then
    .error "attempt to calculate the remainder with a divisor of zero"
  else
    .ok (foundSize ps itemSize minItems
      (sizeOk_exists ps itemSize minItems hps (Nat.pos_of_ne_zero h)))

/-- The retry loop of `DoubleMappedBufferImpl::new`: `rem` remaining loop
iterations return early on the first `Ok`; when the loop is exhausted, one
final attempt is made and its result is returned as-is. -/
def retryLoop {E B : Type} (tries : Nat → Except E B) : Nat → Nat → Except E B
  | i, 0 => tries i
  | i, rem + 1 =>
    match tries i with
    | .ok b => .ok b
    | .error _ => retryLoop tries (i + 1) rem

/-- `DoubleMappedBufferImpl::new`: `for _ in 0..5 { if ok return }` followed by
one final `new_try` whose result is surfaced.  `tries i` is the `Result` of
the `i`-th call to `new_try`. -/
def newRetry {E B : Type} (tries : Nat → Except E B) : Except E B :=
  retryLoop tries 0 5

/-- `DoubleMappedBufferImpl::new` with panic propagation: each attempt first
runs the size-search loop, and a panic there propagates immediately (a Rust
panic is not a `Result::Err` and is not retried); the syscall phase of attempt
`i` is the oracle `tries i`.  The outer `Except String` is panic, the inner
`Except DmError` the returned `Result`. -/
def newModel (ps itemSize minItems : Nat) (hps : 0 < ps)
    (tries : Nat → Except DmError Nat) : Except String (Except DmError Nat) :=
  match sizeSearch ps itemSize minItems hps with
  | .error msg => .error msg
  | .ok _ => .ok (newRetry tries)

/-! ## Derived definitions used by the claims -/

/-- The items at ring positions `offset, offset+1, …, offset+n-1` (mod the
capacity): the contiguous window the double mapping exposes, written with
explicit wrap-around. -/
def wrapSeg {T : Type} (buf : List T) (d : T) (capacity offset n : Nat) : List T :=
  (List.range n).map (fun j => buf.getD ((offset + j) % capacity) d)

/-- A client session on the reader side: for each `k` in `ks`, call
`Reader::slice` and then `Reader::consume k`, collecting the `k` consumed
items of each window.  The session stops early on a `None` slice or a
`consume` panic. -/
def readRun {T Tag : Type} (buf : List T) (i : Nat) :
    EngineState Tag → List Nat → List T × EngineState Tag
  | st, [] => ([], st)
  | st, k :: ks =>
    match Reader.slice buf st i false with
    | (none, st') => ([], st')
    | (some (w, _), st') =>
      match Reader.consume st' i k with
      | .error _ => ([], st')
      | .ok st2 =>
        let rest := readRun buf i st2 ks
        (w.take k ++ rest.1, rest.2)

/-- Several `Writer::produce` calls in a row (no intervening `slice`). -/
def produceRun {Tag : Type} (tags : List Tag) :
    EngineState Tag → List Nat → Except String (EngineState Tag)
  | st, [] => .ok st
  | st, n :: ns =>
    match Writer.produce st n tags with
    | .error e => .error e
    | .ok st' => produceRun tags st' ns

/-- Several `Reader::consume` calls in a row (no intervening `slice`). -/
def consumeRun {Tag : Type} (i : Nat) :
    EngineState Tag → List Nat → Except String (EngineState Tag)
  | st, [] => .ok st
  | st, n :: ns =>
    match Reader.consume st i n with
    | .error e => .error e
    | .ok st' => consumeRun i st' ns

/-- Cursor geometry invariant for one reader against the writer cursor: the
offset is in range and, unwrapping by the generation bit, the reader is never
ahead of the writer (equal bits: reader at or behind the writer in the same
lap; distinct bits: the writer has wrapped once past the reader). -/
def readerInv {Tag : Type} (capacity wOff : Nat) (wAb : Bool) (r : ReaderState Tag) : Prop :=
  r.offset < capacity ∧ (if r.ab = wAb then r.offset ≤ wOff else wOff ≤ r.offset)

/-- The coordination-state part of `Writer::slice` (independent of the data
buffer). -/
def Writer.sliceState {Tag : Type} (st : EngineState Tag) (arm : Bool) : EngineState Tag :=
  (Writer.slice ([] : List Unit) st arm).2

/-- The coordination-state part of `Reader::slice` (independent of the data
buffer). -/
def Reader.sliceState {Tag : Type} (st : EngineState Tag) (i : Nat) (arm : Bool) :
    EngineState Tag :=
  (Reader.slice ([] : List Unit) st i arm).2

/-- States reachable from a fresh engine (`Circular::with_capacity` with a
positive capacity) through the public operations. -/
inductive Reachable (Tag : Type) : EngineState Tag → Prop where
  | init (capacity : Nat) (h : 0 < capacity) : Reachable Tag (initState Tag capacity)
  | addReader {st : EngineState Tag} :
      Reachable Tag st → Reachable Tag (Writer.addReader st).1
  | writerSlice {st : EngineState Tag} (arm : Bool) :
      Reachable Tag st → Reachable Tag (Writer.sliceState st arm)
  | readerSlice {st : EngineState Tag} (i : Nat) (arm : Bool) :
      Reachable Tag st → Reachable Tag (Reader.sliceState st i arm)
  | produce {st st' : EngineState Tag} (n : Nat) (tags : List Tag) :
      Reachable Tag st → Writer.produce st n tags = .ok st' → Reachable Tag st'
  | consume {st st' : EngineState Tag} (i n : Nat) :
      Reachable Tag st → Reader.consume st i n = .ok st' → Reachable Tag st'
  | dropWriter {st : EngineState Tag} :
      Reachable Tag st → Reachable Tag (Writer.dropWriter st)
  | dropReader {st : EngineState Tag} (i : Nat) :
      Reachable Tag st → Reachable Tag { st with readers := st.readers.eraseIdx i }

/-! ## Concrete sample states (used by the witnesses) -/

/-- A sample reader: offset 1, same generation as the writer. -/
def sampleReader : ReaderState Unit :=
  { ab := false, offset := 1, readerNotifies := 0, readerArms := 0,
    writerNotifies := 0, writerArms := 0, metaAdds := [], metaConsumes := [],
    lastSpace := 2 }

/-- A sample engine state: capacity 4, writer at offset 3, one reader at
offset 1, so the reader backlog is 2 and the writable span is 2. -/
def sampleState : EngineState Unit :=
  { capacity := 4, writerOffset := 3, writerAb := false, writerDone := false,
    readers := [sampleReader], writerLastSpace := 2 }

/-- A sample data buffer matching `sampleState` (capacity 4). -/
def sampleBuf : List Nat := [10, 11, 12, 13]

/-! ## Helper lemmas -/

theorem foldl_min_le_init {α : Type} (f : α → Nat) (l : List α) :
    ∀ init : Nat, l.foldl (fun acc r => min acc (f r)) init ≤ init := by
  induction l with
  | nil => intro init; exact le_refl _
  | cons r rs ih =>
    intro init
    exact le_trans (ih (min init (f r))) (min_le_left _ _)

theorem foldl_min_zero {α : Type} (f : α → Nat) (l : List α) :
    l.foldl (fun acc r => min acc (f r)) 0 = 0 :=
  Nat.eq_zero_of_le_zero (foldl_min_le_init f l 0)

theorem foldl_min_le_mem {α : Type} (f : α → Nat) (l : List α) :
    ∀ init : Nat, ∀ a ∈ l, l.foldl (fun acc r => min acc (f r)) init ≤ f a := by
  induction l with
  | nil => intro _ a ha; exact absurd ha (List.not_mem_nil a)
  | cons r rs ih =>
    intro init a ha
    rcases List.mem_cons.mp ha with h | h
    · subst h
      exact le_trans (foldl_min_le_init f rs (min init (f a))) (min_le_right _ _)
    · exact ih (min init (f r)) a h

theorem foldl_min_attained {α : Type} (f : α → Nat) (l : List α) :
    ∀ init : Nat,
      l.foldl (fun acc r => min acc (f r)) init = init
      ∨ ∃ a ∈ l, l.foldl (fun acc r => min acc (f r)) init = f a := by
  induction l with
  | nil => intro init; exact Or.inl rfl
  | cons r rs ih =>
    intro init
    have hstep : (r :: rs).foldl (fun acc r => min acc (f r)) init =
        rs.foldl (fun acc r => min acc (f r)) (min init (f r)) := rfl
    rcases ih (min init (f r)) with h | ⟨a, ha, h⟩
    · rcases le_total init (f r) with hle | hle
      · left
        rw [hstep, h, min_eq_left hle]
      · right
        exact ⟨r, List.mem_cons_self r rs, by rw [hstep, h, min_eq_right hle]⟩
    · right
      exact ⟨a, List.mem_cons_of_mem r ha, by rw [hstep, h]⟩

theorem spaceLoop_fst {Tag : Type} (capacity wOff : Nat) (wAb : Bool) (arm : Bool)
    (rs : List (ReaderState Tag)) :
    ∀ space : Nat,
      (spaceLoop capacity wOff wAb arm rs space).1 =
        rs.foldl (fun acc r => min acc (writerSpace capacity wOff wAb r.offset r.ab))
          space := by
  induction rs with
  | nil => intro space; rfl
  | cons r rs ih =>
    intro space
    have hstep : (r :: rs).foldl
        (fun acc x => min acc (writerSpace capacity wOff wAb x.offset x.ab)) space =
        rs.foldl (fun acc x => min acc (writerSpace capacity wOff wAb x.offset x.ab))
          (min space (writerSpace capacity wOff wAb r.offset r.ab)) := rfl
    by_cases hs : writerSpace capacity wOff wAb r.offset r.ab = 0
    · have hz : min space (writerSpace capacity wOff wAb r.offset r.ab) = 0 := by
        rw [hs]; exact Nat.min_zero space
      rw [hstep, hz, foldl_min_zero]
      cases arm <;> simp [spaceLoop, hs, hz]
    · rw [hstep, ← ih]
      simp only [spaceLoop]
      rw [if_neg hs]

theorem writerSpace_le {capacity wOff rOff : Nat} (wAb rAb : Bool)
    (hw : wOff < capacity) (hr : rOff < capacity) :
    writerSpace capacity wOff wAb rOff rAb ≤ capacity := by
  unfold writerSpace; split_ifs <;> omega

theorem readerSpace_le {capacity wOff rOff : Nat} (wAb rAb : Bool)
    (hw : wOff < capacity) (hr : rOff ≤ capacity) :
    readerSpace capacity wOff wAb rOff rAb ≤ capacity := by
  unfold readerSpace; split_ifs <;> omega

theorem length_take_sliceWithOffset {T : Type} (buf : List T) (capacity offset n : Nat)
    (hbuf : buf.length = capacity) (hoff : offset ≤ capacity) (hn : n ≤ capacity) :
    ((sliceWithOffset buf capacity offset).take n).length = n := by
  simp only [sliceWithOffset, List.length_take, List.length_drop, List.length_append, hbuf]
  omega

/-! ## Claim C1 -/

/-- C1: `Writer::slice` returns a window whose length equals the writable
span: the fold of `min` over the per-reader writer-space expressions started
at the capacity; with no readers attached it equals the capacity; with
readers attached it is a lower bound of, and is attained by, the per-reader
expressions — i.e. it is their minimum. -/
theorem writer_slice_length_is_writable_span {T Tag : Type} (buf : List T)
    (st : EngineState Tag) (arm : Bool)
    (hbuf : buf.length = st.capacity) (hw : st.writerOffset < st.capacity)
    (hr : ∀ r ∈ st.readers, r.offset < st.capacity) :
    ((Writer.slice buf st arm).1.length =
        st.readers.foldl
          (fun acc r =>
            min acc (writerSpace st.capacity st.writerOffset st.writerAb r.offset r.ab))
          st.capacity)
    ∧ (st.readers = [] → (Writer.slice buf st arm).1.length = st.capacity)
    ∧ (∀ r ∈ st.readers,
        (Writer.slice buf st arm).1.length ≤
          writerSpace st.capacity st.writerOffset st.writerAb r.offset r.ab)
    ∧ (st.readers ≠ [] → ∃ r ∈ st.readers,
        (Writer.slice buf st arm).1.length =
          writerSpace st.capacity st.writerOffset st.writerAb r.offset r.ab) := by
  have hspace : (Writer.spaceAndOffset st arm).1 =
      st.readers.foldl
        (fun acc r =>
          min acc (writerSpace st.capacity st.writerOffset st.writerAb r.offset r.ab))
        st.capacity :=
    spaceLoop_fst st.capacity st.writerOffset st.writerAb arm st.readers st.capacity
  have hle : (Writer.spaceAndOffset st arm).1 ≤ st.capacity := by
    rw [hspace]; exact foldl_min_le_init _ _ _
  have hlen : (Writer.slice buf st arm).1.length = (Writer.spaceAndOffset st arm).1 := by
    show ((sliceWithOffset buf st.capacity (Writer.spaceAndOffset st arm).2.1).take
        (Writer.spaceAndOffset st arm).1).length = _
    have hoff : (Writer.spaceAndOffset st arm).2.1 = st.writerOffset := rfl
    rw [hoff]
    exact length_take_sliceWithOffset buf st.capacity st.writerOffset _ hbuf
      (le_of_lt hw) hle
  refine ⟨by rw [hlen, hspace], ?_, ?_, ?_⟩
  · intro hnil
    rw [hlen, hspace, hnil]
    rfl
  · intro r hmem
    rw [hlen, hspace]
    exact foldl_min_le_mem _ _ _ r hmem
  · intro hne
    rw [hlen, hspace]
    rcases foldl_min_attained
        (fun r => writerSpace st.capacity st.writerOffset st.writerAb r.offset r.ab)
        st.readers st.capacity with h | ⟨a, ha, h⟩
    · obtain ⟨r0, rs, hcons⟩ := List.exists_cons_of_ne_nil hne
      have hmem : r0 ∈ st.readers := by
        rw [hcons]; exact List.mem_cons_self r0 rs
      refine ⟨r0, hmem, ?_⟩
      have h1 : st.readers.foldl
          (fun acc r =>
            min acc (writerSpace st.capacity st.writerOffset st.writerAb r.offset r.ab))
          st.capacity ≤ writerSpace st.capacity st.writerOffset st.writerAb r0.offset r0.ab :=
        foldl_min_le_mem _ st.readers st.capacity r0 hmem
      have h2 : writerSpace st.capacity st.writerOffset st.writerAb r0.offset r0.ab ≤
          st.capacity :=
        writerSpace_le st.writerAb r0.ab hw (hr r0 hmem)
      have h3 : st.readers.foldl
          (fun acc r =>
            min acc (writerSpace st.capacity st.writerOffset st.writerAb r.offset r.ab))
          st.capacity = st.capacity := h
      omega
    · exact ⟨a, ha, h⟩

/-- Witness for C1 at a concrete state: capacity 4, writer offset 3, one
reader at offset 1, writable span 2. -/
theorem writer_slice_length_is_writable_span_witness :
    sampleBuf.length = sampleState.capacity
    ∧ sampleState.writerOffset < sampleState.capacity
    ∧ (∀ r ∈ sampleState.readers, r.offset < sampleState.capacity)
    ∧ ((Writer.slice sampleBuf sampleState false).1.length =
        sampleState.readers.foldl
          (fun acc r =>
            min acc (writerSpace sampleState.capacity sampleState.writerOffset
              sampleState.writerAb r.offset r.ab))
          sampleState.capacity) :=
  ⟨by decide, by decide, by decide,
   (writer_slice_length_is_writable_span sampleBuf sampleState false (by decide)
      (by decide) (by decide)).1⟩

/-! ## Claim C2 -/

/-- C2: `Reader::slice` returns a window whose length equals the readable
span, written exactly as in the claim (`w_off + capacity - r_off` if
`r_off > w_off`; `w_off - r_off` if `r_off < w_off`; at equal offsets `0`
when the generation bits agree and `capacity` otherwise); the only case with
no window is span `0` with the writer done. -/
theorem reader_slice_length_is_readable_span {T Tag : Type} (buf : List T)
    (st : EngineState Tag) (i : Nat) (arm : Bool) (r : ReaderState Tag)
    (hget : st.readers.get? i = some r)
    (hbuf : buf.length = st.capacity) (hw : st.writerOffset < st.capacity)
    (hr : r.offset < st.capacity) :
    ((Reader.slice buf st i arm).1 = none
        ∧ (if r.offset > st.writerOffset then st.writerOffset + st.capacity - r.offset
           else if r.offset < st.writerOffset then st.writerOffset - r.offset
           else if r.ab = st.writerAb then 0 else st.capacity) = 0
        ∧ st.writerDone = true)
    ∨ (∃ w tags, (Reader.slice buf st i arm).1 = some (w, tags)
        ∧ w.length =
            (if r.offset > st.writerOffset then st.writerOffset + st.capacity - r.offset
             else if r.offset < st.writerOffset then st.writerOffset - r.offset
             else if r.ab = st.writerAb then 0 else st.capacity)) := by
  have hspan : (if r.offset > st.writerOffset then st.writerOffset + st.capacity - r.offset
      else if r.offset < st.writerOffset then st.writerOffset - r.offset
      else if r.ab = st.writerAb then 0 else st.capacity) =
      readerSpace st.capacity st.writerOffset st.writerAb r.offset r.ab := rfl
  rw [hspan]
  have hres : Reader.spaceAndOffsetAndMeta st i arm =
      (readerSpace st.capacity st.writerOffset st.writerAb r.offset r.ab, r.offset,
        st.writerDone, r.metaAdds,
        if readerSpace st.capacity st.writerOffset st.writerAb r.offset r.ab = 0 ∧ arm then
          { st with readers := st.readers.set i { r with readerArms := r.readerArms + 1 } }
        else st) := by
    simp only [Reader.spaceAndOffsetAndMeta, hget]
  by_cases hcase : readerSpace st.capacity st.writerOffset st.writerAb r.offset r.ab = 0
      ∧ st.writerDone = true
  · left
    refine ⟨?_, hcase.1, hcase.2⟩
    simp only [Reader.slice, hres]
    rw [if_pos ⟨hcase.1, hcase.2⟩]
  · right
    refine ⟨(sliceWithOffset buf st.capacity r.offset).take
        (readerSpace st.capacity st.writerOffset st.writerAb r.offset r.ab),
      r.metaAdds, ?_, ?_⟩
    · simp only [Reader.slice, hres]
      rw [if_neg ?_]
      intro ⟨h1, h2⟩
      exact hcase ⟨h1, h2⟩
    · exact length_take_sliceWithOffset buf st.capacity r.offset _ hbuf (le_of_lt hr)
        (readerSpace_le st.writerAb r.ab hw (le_of_lt hr))

/-- Witness for C2 at a concrete state: backlog 2, writer not done, so the
window is returned with length 2. -/
theorem reader_slice_length_is_readable_span_witness :
    sampleState.readers.get? 0 = some sampleReader
    ∧ sampleBuf.length = sampleState.capacity
    ∧ sampleState.writerOffset < sampleState.capacity
    ∧ sampleReader.offset < sampleState.capacity
    ∧ (((Reader.slice sampleBuf sampleState 0 false).1 = none
          ∧ (if sampleReader.offset > sampleState.writerOffset then
               sampleState.writerOffset + sampleState.capacity - sampleReader.offset
             else if sampleReader.offset < sampleState.writerOffset then
               sampleState.writerOffset - sampleReader.offset
             else if sampleReader.ab = sampleState.writerAb then 0 else sampleState.capacity) = 0
          ∧ sampleState.writerDone = true)
      ∨ (∃ w tags, (Reader.slice sampleBuf sampleState 0 false).1 = some (w, tags)
          ∧ w.length =
              (if sampleReader.offset > sampleState.writerOffset then
                 sampleState.writerOffset + sampleState.capacity - sampleReader.offset
               else if sampleReader.offset < sampleState.writerOffset then
                 sampleState.writerOffset - sampleReader.offset
               else if sampleReader.ab = sampleState.writerAb then 0
               else sampleState.capacity))) :=
  ⟨by decide, by decide, by decide, by decide,
   reader_slice_length_is_readable_span sampleBuf sampleState 0 false sampleReader
     (by decide) (by decide) (by decide) (by decide)⟩

/-! ## Claim C5 -/

/-- C5: the size-search loop chooses the backing size `S` as the smallest
positive multiple of the page granularity that is at least
`min_items * item_size` and a multiple of `item_size`; consequently the
capacity `S / item_size` is at least `min_items`, `capacity * item_size` is a
multiple of the page granularity, and `min_items = 0` still yields a capacity
of at least 1. -/
theorem backing_size_smallest_qualifying_multiple (ps itemSize minItems : Nat)
    (hps : 0 < ps) (hit : 0 < itemSize) :
    0 < chosenSize ps itemSize minItems hps hit
    ∧ ps ∣ chosenSize ps itemSize minItems hps hit
    ∧ minItems * itemSize ≤ chosenSize ps itemSize minItems hps hit
    ∧ itemSize ∣ chosenSize ps itemSize minItems hps hit
    ∧ (∀ S2, 0 < S2 → ps ∣ S2 → minItems * itemSize ≤ S2 → itemSize ∣ S2 →
        chosenSize ps itemSize minItems hps hit ≤ S2)
    ∧ implCapacity (chosenSize ps itemSize minItems hps hit) itemSize * itemSize =
        chosenSize ps itemSize minItems hps hit
    ∧ minItems ≤ implCapacity (chosenSize ps itemSize minItems hps hit) itemSize
    ∧ ps ∣ implCapacity (chosenSize ps itemSize minItems hps hit) itemSize * itemSize
    ∧ (minItems = 0 →
        1 ≤ implCapacity (chosenSize ps itemSize minItems hps hit) itemSize) := by
  set S : Nat := chosenSize ps itemSize minItems hps hit with hSset
  have hex := sizeOk_exists ps itemSize minItems hps hit
  have hfind : sizeOk itemSize minItems ((Nat.find hex + 1) * ps) := Nat.find_spec hex
  have hSdef : S = (Nat.find hex + 1) * ps := rfl
  have hpos : 0 < S := by
    rw [hSdef]; exact Nat.mul_pos (Nat.succ_pos _) hps
  have hdvd_ps : ps ∣ S := by
    rw [hSdef]; exact Dvd.intro_left _ rfl
  have hge : minItems * itemSize ≤ S := by rw [hSdef]; exact hfind.1
  have hdvd_item : itemSize ∣ S := by
    rw [hSdef]; exact Nat.dvd_of_mod_eq_zero hfind.2
  have hmin : ∀ S2, 0 < S2 → ps ∣ S2 → minItems * itemSize ≤ S2 → itemSize ∣ S2 → S ≤ S2 := by
    intro S2 hS2 hd hge2 hdvd2
    obtain ⟨c, hc⟩ := hd
    have hcpos : 0 < c := by
      rcases Nat.eq_zero_or_pos c with h | h
      · rw [h, Nat.mul_zero] at hc; omega
      · exact h
    have hok : sizeOk itemSize minItems ((c - 1 + 1) * ps) := by
      have hc1 : c - 1 + 1 = c := by omega
      rw [hc1, Nat.mul_comm, ← hc]
      refine ⟨hge2, ?_⟩
      obtain ⟨m, hm⟩ := hdvd2
      rw [hm]
      exact Nat.mul_mod_right itemSize m
    have hfle : Nat.find hex ≤ c - 1 := Nat.find_min' hex hok
    have : (Nat.find hex + 1) * ps ≤ c * ps := by
      have h1 : Nat.find hex + 1 ≤ c := by omega
      exact Nat.mul_le_mul_right ps h1
    rw [hSdef, hc, Nat.mul_comm c ps] at *
    omega
  have hcapmul : implCapacity S itemSize * itemSize = S :=
    Nat.div_mul_cancel hdvd_item
  have hcapge : minItems ≤ implCapacity S itemSize := by
    have h1 : minItems * itemSize ≤ implCapacity S itemSize * itemSize := by
      rw [hcapmul]; exact hge
    exact Nat.le_of_mul_le_mul_right h1 hit
  have hcapdvd : ps ∣ implCapacity S itemSize * itemSize := by
    rw [hcapmul]; exact hdvd_ps
  have hcap1 : minItems = 0 → 1 ≤ implCapacity S itemSize := by
    intro _
    rcases Nat.eq_zero_or_pos (implCapacity S itemSize) with h | h
    · rw [h, Nat.zero_mul] at hcapmul; omega
    · exact h
  exact ⟨hpos, hdvd_ps, hge, hdvd_item, hmin, hcapmul, hcapge, hcapdvd, hcap1⟩

/-- Witness for C5 at page granularity 4, item size 3, `min_items` 5: the
chosen backing size is 24 and the capacity 8. -/
theorem backing_size_smallest_qualifying_multiple_witness :
    (0 < 4 ∧ 0 < 3) ∧
    (0 < chosenSize 4 3 5 (by decide) (by decide)
     ∧ (4:Nat) ∣ chosenSize 4 3 5 (by decide) (by decide)
     ∧ 5 * 3 ≤ chosenSize 4 3 5 (by decide) (by decide)
     ∧ (3:Nat) ∣ chosenSize 4 3 5 (by decide) (by decide)
     ∧ (∀ S2, 0 < S2 → (4:Nat) ∣ S2 → 5 * 3 ≤ S2 → (3:Nat) ∣ S2 →
         chosenSize 4 3 5 (by decide) (by decide) ≤ S2)
     ∧ implCapacity (chosenSize 4 3 5 (by decide) (by decide)) 3 * 3 =
         chosenSize 4 3 5 (by decide) (by decide)
     ∧ 5 ≤ implCapacity (chosenSize 4 3 5 (by decide) (by decide)) 3
     ∧ (4:Nat) ∣ implCapacity (chosenSize 4 3 5 (by decide) (by decide)) 3 * 3
     ∧ ((5:Nat) = 0 → 1 ≤ implCapacity (chosenSize 4 3 5 (by decide) (by decide)) 3)) :=
  ⟨⟨by decide, by decide⟩,
   backing_size_smallest_qualifying_multiple 4 3 5 (by decide) (by decide)⟩

/-! ## Claim C6 -/

/-- C6: `produce n` fails hard with "produced too much" exactly when `n`
exceeds the writer's last-returned window size, and `consume n` fails hard
with "consumed too much!" exactly when `n` exceeds the reader's last-returned
window size; within the bound the operations succeed. -/
theorem produce_consume_panic_iff_exceeds_last_window {Tag : Type}
    (st : EngineState Tag) (n : Nat) (tags : List Tag) (i : Nat) (r : ReaderState Tag)
    (hget : st.readers.get? i = some r) :
    (Writer.produce st n tags = .error "vmcircbuffer: produced too much"
      ↔ st.writerLastSpace < n)
    ∧ (n ≤ st.writerLastSpace → ∃ st2, Writer.produce st n tags = .ok st2)
    ∧ (Reader.consume st i n = .error "vmcircbuffer: consumed too much!"
      ↔ r.lastSpace < n)
    ∧ (n ≤ r.lastSpace → ∃ st2, Reader.consume st i n = .ok st2) := by
  refine ⟨?_, ?_, ?_, ?_⟩
  · constructor
    · intro h
      by_contra hc
      push_neg at hc
      rcases Nat.eq_zero_or_pos n with h0 | h0
      · rw [Writer.produce, if_pos h0] at h
        exact Except.noConfusion h
      · rw [Writer.produce, if_neg (by omega), if_neg (by omega)] at h
        exact Except.noConfusion h
    · intro h
      have h0 : ¬ n = 0 := by omega
      rw [Writer.produce, if_neg h0, if_pos h]
  · intro h
    rcases Nat.eq_zero_or_pos n with h0 | h0
    · exact ⟨st, by rw [Writer.produce, if_pos h0]⟩
    · rw [Writer.produce, if_neg (by omega), if_neg (by omega)]
      exact ⟨_, rfl⟩
  · constructor
    · intro h
      by_contra hc
      push_neg at hc
      rcases Nat.eq_zero_or_pos n with h0 | h0
      · rw [Reader.consume, if_pos h0] at h
        exact Except.noConfusion h
      · rw [Reader.consume, if_neg (by omega)] at h
        simp only [hget] at h
        rw [if_neg (by omega)] at h
        exact Except.noConfusion h
    · intro h
      have h0 : ¬ n = 0 := by omega
      rw [Reader.consume, if_neg h0]
      simp only [hget]
      rw [if_pos h]
  · intro h
    rcases Nat.eq_zero_or_pos n with h0 | h0
    · exact ⟨st, by rw [Reader.consume, if_pos h0]⟩
    · rw [Reader.consume, if_neg (by omega)]
      simp only [hget]
      rw [if_neg (by omega)]
      exact ⟨_, rfl⟩

/-- Witness for C6: with last window 2, producing 3 panics and producing 2
succeeds. -/
theorem produce_consume_panic_iff_exceeds_last_window_witness :
    (Writer.produce sampleState 3 [] = .error "vmcircbuffer: produced too much"
      ↔ sampleState.writerLastSpace < 3)
    ∧ (3 ≤ sampleState.writerLastSpace → ∃ st2, Writer.produce sampleState 3 [] = .ok st2)
    ∧ (Reader.consume sampleState 0 3 = .error "vmcircbuffer: consumed too much!"
      ↔ sampleReader.lastSpace < 3)
    ∧ (3 ≤ sampleReader.lastSpace → ∃ st2, Reader.consume sampleState 0 3 = .ok st2) :=
  produce_consume_panic_iff_exceeds_last_window sampleState 3 [] 0 sampleReader (by decide)

/-! ## Claim C8 -/

theorem retryLoop_all_err {E B : Type} (tries : Nat → Except E B) :
    ∀ (rem i : Nat), (∀ u, u < rem → ∃ e, tries (i + u) = .error e) →
      retryLoop tries i rem = tries (i + rem) := by
  intro rem
  induction rem with
  | zero => intro i _; rfl
  | succ rem ih =>
    intro i h
    obtain ⟨e, he⟩ := h 0 (Nat.succ_pos rem)
    rw [Nat.add_zero] at he
    show (match tries i with
      | .ok b => Except.ok b
      | .error _ => retryLoop tries (i + 1) rem) = _
    rw [he]
    have := ih (i + 1) (fun u hu => by
      have h2 := h (u + 1) (by omega)
      rw [show i + (u + 1) = i + 1 + u by omega] at h2
      exact h2)
    rw [this, show i + 1 + rem = i + (rem + 1) by omega]

theorem retryLoop_first_ok {E B : Type} (tries : Nat → Except E B) :
    ∀ (rem i t : Nat) (b : B), t ≤ rem → tries (i + t) = .ok b →
      (∀ u, u < t → ∃ e, tries (i + u) = .error e) →
      retryLoop tries i rem = .ok b := by
  intro rem
  induction rem with
  | zero =>
    intro i t b ht hok _
    have : t = 0 := by omega
    subst this
    rw [Nat.add_zero] at hok
    show tries i = .ok b
    exact hok
  | succ rem ih =>
    intro i t b ht hok herr
    show (match tries i with
      | .ok b => Except.ok b
      | .error _ => retryLoop tries (i + 1) rem) = _
    rcases Nat.eq_zero_or_pos t with h0 | h0
    · subst h0
      rw [Nat.add_zero] at hok
      rw [hok]
    · obtain ⟨e, he⟩ := herr 0 h0
      rw [Nat.add_zero] at he
      rw [he]
      refine ih (i + 1) (t - 1) b (by omega) ?_ ?_
      · rw [show i + 1 + (t - 1) = i + t by omega]
        exact hok
      · intro u hu
        have h2 := herr (u + 1) (by omega)
        rw [show i + (u + 1) = i + 1 + u by omega] at h2
        exact h2

theorem retryLoop_congr {E B : Type} (tries tries2 : Nat → Except E B) :
    ∀ (rem i : Nat), (∀ j, i ≤ j → j ≤ i + rem → tries j = tries2 j) →
      retryLoop tries i rem = retryLoop tries2 i rem := by
  intro rem
  induction rem with
  | zero =>
    intro i h
    show tries i = tries2 i
    exact h i (le_refl i) (by omega)
  | succ rem ih =>
    intro i h
    show (match tries i with
      | .ok b => Except.ok b
      | .error _ => retryLoop tries (i + 1) rem) =
      (match tries2 i with
      | .ok b => Except.ok b
      | .error _ => retryLoop tries2 (i + 1) rem)
    rw [h i (le_refl i) (by omega)]
    cases tries2 i with
    | ok b => rfl
    | error e =>
      exact ih (i + 1) (fun j h1 h2 => h j (by omega) (by omega))

/-- C8: `DoubleMappedBufferImpl::new` returns the buffer of the first
successful attempt immediately; when the five loop attempts all fail, the
result is that of the final (sixth) attempt, whatever it is — so the
surfaced error is the final attempt's error; and the construction never looks
past attempt index 5. -/
theorem new_retries_up_to_five_then_surfaces_final {E B : Type}
    (tries tries2 : Nat → Except E B) (k : Nat) (b : B)
    (hk : k ≤ 5) (hok : tries k = .ok b)
    (hbefore : ∀ u, u < k → ∃ e, tries u = .error e)
    (hfail : ∀ u, u < 5 → ∃ e, tries2 u = .error e) :
    newRetry tries = .ok b
    ∧ newRetry tries2 = tries2 5
    ∧ (∀ tries3 tries4 : Nat → Except E B,
        (∀ j, j ≤ 5 → tries3 j = tries4 j) → newRetry tries3 = newRetry tries4) := by
  refine ⟨?_, ?_, ?_⟩
  · exact retryLoop_first_ok tries 5 0 k b hk (by rw [Nat.zero_add]; exact hok)
      (fun u hu => by rw [Nat.zero_add]; exact hbefore u hu)
  · have := retryLoop_all_err tries2 5 0 (fun u hu => by
      rw [Nat.zero_add]; exact hfail u hu)
    rw [Nat.zero_add] at this
    exact this
  · intro tries3 tries4 h
    exact retryLoop_congr tries3 tries4 5 0 (fun j h1 h2 => h j (by omega))

/-- Witness for C8: an oracle failing on attempts 0 and 1 and succeeding on
attempt 2 yields the attempt-2 buffer; an always-failing oracle surfaces the
result of attempt 5. -/
theorem new_retries_up_to_five_then_surfaces_final_witness :
    newRetry (fun j => if j < 2 then .error DmError.mapSecond else .ok j) = .ok 2
    ∧ newRetry (fun _ => (.error DmError.mapSecond : Except DmError Nat)) =
        (fun _ => (.error DmError.mapSecond : Except DmError Nat)) 5
    ∧ (∀ tries3 tries4 : Nat → Except DmError Nat,
        (∀ j, j ≤ 5 → tries3 j = tries4 j) → newRetry tries3 = newRetry tries4) :=
  new_retries_up_to_five_then_surfaces_final
    (fun j => if j < 2 then .error DmError.mapSecond else .ok j)
    (fun _ => (.error DmError.mapSecond : Except DmError Nat)) 2 2
    (by decide) rfl
    (fun u hu => ⟨DmError.mapSecond, by
      interval_cases u <;> rfl⟩)
    (fun u hu => ⟨DmError.mapSecond, rfl⟩)

/-! ## Claim C10 -/

/-- C10: for a zero-sized item type the size-search loop's divisibility check
`size % item_size` is evaluated with divisor zero (the `min_items*0 ≤ size`
guard never short-circuits it) and panics, so the construction panics instead
of returning a `Result`. -/
theorem zero_sized_items_panic_on_remainder (minItems size ps : Nat) (hps : 0 < ps)
    (tries : Nat → Except DmError Nat) :
    loopGuard 0 minItems size =
      .error "attempt to calculate the remainder with a divisor of zero"
    ∧ newModel ps 0 minItems hps tries =
      .error "attempt to calculate the remainder with a divisor of zero" := by
  constructor
  · rw [loopGuard, if_neg (by omega)]
    rfl
  · rw [newModel, sizeSearch]
    rfl

/-- Witness for C10 at page size 4096. -/
theorem zero_sized_items_panic_on_remainder_witness :
    loopGuard 0 17 4096 =
      .error "attempt to calculate the remainder with a divisor of zero"
    ∧ newModel 4096 0 17 (by decide) (fun _ => .ok 0) =
      .error "attempt to calculate the remainder with a divisor of zero" :=
  zero_sized_items_panic_on_remainder 17 4096 4096 (by decide) (fun _ => .ok 0)

/-! ## Claim C9 -/

theorem produce_ok_shape {Tag : Type} (st : EngineState Tag) (n : Nat) (tags : List Tag)
    (h : n ≤ st.writerLastSpace) :
    ∃ st2, Writer.produce st n tags = .ok st2
      ∧ st2.writerLastSpace = st.writerLastSpace - n := by
  rcases Nat.eq_zero_or_pos n with h0 | h0
  · refine ⟨st, ?_, by omega⟩
    rw [Writer.produce, if_pos h0]
  · rw [Writer.produce, if_neg (by omega), if_neg (by omega)]
    exact ⟨_, rfl, rfl⟩

theorem consume_ok_shape {Tag : Type} (st : EngineState Tag) (i n : Nat)
    (r : ReaderState Tag) (hget : st.readers.get? i = some r) (h : n ≤ r.lastSpace) :
    ∃ st2 r2, Reader.consume st i n = .ok st2 ∧ st2.readers.get? i = some r2
      ∧ r2.lastSpace = r.lastSpace - n := by
  rcases Nat.eq_zero_or_pos n with h0 | h0
  · refine ⟨st, r, ?_, hget, by omega⟩
    rw [Reader.consume, if_pos h0]
  · have hlen : i < st.readers.length := (List.get?_eq_some.mp hget).1
    rw [Reader.consume, if_neg (by omega)]
    simp only [hget]
    rw [if_neg (by omega)]
    refine ⟨_, { r with
        lastSpace := r.lastSpace - n
        metaConsumes := r.metaConsumes ++ [n]
        ab := if st.capacity ≤ r.offset + n then !r.ab else r.ab
        offset := (r.offset + n) % st.capacity
        writerNotifies := r.writerNotifies + 1 }, rfl, ?_, rfl⟩
    exact List.get?_set_eq_of_lt _ hlen

theorem produceRun_sum {Tag : Type} (tags : List Tag) :
    ∀ (ns : List Nat) (st : EngineState Tag),
      (ns.sum ≤ st.writerLastSpace →
        ∃ st2, produceRun tags st ns = .ok st2
          ∧ st2.writerLastSpace = st.writerLastSpace - ns.sum)
      ∧ (st.writerLastSpace < ns.sum → ∃ e, produceRun tags st ns = .error e) := by
  intro ns
  induction ns with
  | nil =>
    intro st
    exact ⟨fun _ => ⟨st, rfl, by simp⟩, fun h => absurd h (by simp)⟩
  | cons n ns ih =>
    intro st
    have hsum : (n :: ns).sum = n + ns.sum := List.sum_cons
    constructor
    · intro h
      have hn : n ≤ st.writerLastSpace := by omega
      obtain ⟨st1, hok, hlast⟩ := produce_ok_shape st n tags hn
      obtain ⟨st2, hok2, hlast2⟩ := (ih st1).1 (by omega)
      refine ⟨st2, ?_, by omega⟩
      simp only [produceRun, hok]
      exact hok2
    · intro h
      rcases Nat.lt_or_ge st.writerLastSpace n with hn | hn
      · have herr : Writer.produce st n tags = .error "vmcircbuffer: produced too much" := by
          rw [Writer.produce, if_neg (by omega), if_pos hn]
        refine ⟨"vmcircbuffer: produced too much", ?_⟩
        simp only [produceRun, herr]
      · obtain ⟨st1, hok, hlast⟩ := produce_ok_shape st n tags hn
        obtain ⟨e, he⟩ := (ih st1).2 (by omega)
        refine ⟨e, ?_⟩
        simp only [produceRun, hok]
        exact he

theorem consumeRun_sum {Tag : Type} (i : Nat) :
    ∀ (ns : List Nat) (st : EngineState Tag) (r : ReaderState Tag),
      st.readers.get? i = some r →
      (ns.sum ≤ r.lastSpace →
        ∃ st2 r2, consumeRun i st ns = .ok st2 ∧ st2.readers.get? i = some r2
          ∧ r2.lastSpace = r.lastSpace - ns.sum)
      ∧ (r.lastSpace < ns.sum → ∃ e, consumeRun i st ns = .error e) := by
  intro ns
  induction ns with
  | nil =>
    intro st r hget
    exact ⟨fun _ => ⟨st, r, rfl, hget, by simp⟩, fun h => absurd h (by simp)⟩
  | cons n ns ih =>
    intro st r hget
    have hsum : (n :: ns).sum = n + ns.sum := List.sum_cons
    constructor
    · intro h
      have hn : n ≤ r.lastSpace := by omega
      obtain ⟨st1, r1, hok, hget1, hlast⟩ := consume_ok_shape st i n r hget hn
      obtain ⟨st2, r2, hok2, hget2, hlast2⟩ := (ih st1 r1 hget1).1 (by omega)
      refine ⟨st2, r2, ?_, hget2, by omega⟩
      simp only [consumeRun, hok]
      exact hok2
    · intro h
      rcases Nat.lt_or_ge r.lastSpace n with hn | hn
      · have herr : Reader.consume st i n = .error "vmcircbuffer: consumed too much!" := by
          rw [Reader.consume, if_neg (by omega)]
          simp only [hget]
          rw [if_pos hn]
        refine ⟨"vmcircbuffer: consumed too much!", ?_⟩
        simp only [consumeRun, herr]
      · obtain ⟨st1, r1, hok, hget1, hlast⟩ := consume_ok_shape st i n r hget hn
        obtain ⟨e, he⟩ := (ih st1 r1 hget1).2 (by omega)
        refine ⟨e, ?_⟩
        simp only [consumeRun, hok]
        exact he

/-- C9: each successful `produce n` decrements the writer's `last_space`
shadow by `n` and each successful `consume n` decrements the reader's; hence
a batch of produce (resp. consume) calls between two `slice` calls is
accepted exactly when its cumulative sum does not exceed the most recently
returned window size. -/
theorem batched_calls_accepted_iff_cumulative_sum_fits {Tag : Type}
    (st : EngineState Tag) (n : Nat) (tags : List Tag) (i : Nat) (r : ReaderState Tag)
    (ns : List Nat) (hget : st.readers.get? i = some r)
    (hn : n ≤ st.writerLastSpace) (hnr : n ≤ r.lastSpace) :
    (∃ st2, Writer.produce st n tags = .ok st2
      ∧ st2.writerLastSpace = st.writerLastSpace - n)
    ∧ (∃ st2 r2, Reader.consume st i n = .ok st2 ∧ st2.readers.get? i = some r2
      ∧ r2.lastSpace = r.lastSpace - n)
    ∧ ((∃ st2, produceRun tags st ns = .ok st2) ↔ ns.sum ≤ st.writerLastSpace)
    ∧ ((∃ st2, consumeRun i st ns = .ok st2) ↔ ns.sum ≤ r.lastSpace) := by
  refine ⟨produce_ok_shape st n tags hn, consume_ok_shape st i n r hget hnr, ?_, ?_⟩
  · constructor
    · intro ⟨st2, hok⟩
      by_contra hc
      push_neg at hc
      obtain ⟨e, he⟩ := (produceRun_sum tags ns st).2 hc
      rw [hok] at he
      exact Except.noConfusion he
    · intro h
      obtain ⟨st2, hok, _⟩ := (produceRun_sum tags ns st).1 h
      exact ⟨st2, hok⟩
  · constructor
    · intro ⟨st2, hok⟩
      by_contra hc
      push_neg at hc
      obtain ⟨e, he⟩ := (consumeRun_sum i ns st r hget).2 hc
      rw [hok] at he
      exact Except.noConfusion he
    · intro h
      obtain ⟨st2, r2, hok, _, _⟩ := (consumeRun_sum i ns st r hget).1 h
      exact ⟨st2, hok⟩

/-- Witness for C9: with last window 2, the batch `[1, 1]` is accepted while
each call individually stays under the bound only cumulatively. -/
theorem batched_calls_accepted_iff_cumulative_sum_fits_witness :
    (∃ st2, Writer.produce sampleState 1 [] = .ok st2
      ∧ st2.writerLastSpace = sampleState.writerLastSpace - 1)
    ∧ (∃ st2 r2, Reader.consume sampleState 0 1 = .ok st2
      ∧ st2.readers.get? 0 = some r2
      ∧ r2.lastSpace = sampleReader.lastSpace - 1)
    ∧ ((∃ st2, produceRun [] sampleState [1, 1] = .ok st2)
      ↔ [1, 1].sum ≤ sampleState.writerLastSpace)
    ∧ ((∃ st2, consumeRun 0 sampleState [1, 1] = .ok st2)
      ↔ [1, 1].sum ≤ sampleReader.lastSpace) :=
  batched_calls_accepted_iff_cumulative_sum_fits sampleState 1 [] 0 sampleReader
    [1, 1] (by decide) (by decide) (by decide)

/-! ## Claim C7 -/

/-- C7: `produce(n, tags)` with `n > 0` records, for every attached reader, a
`metadata.add` call whose offset is that reader's backlog (readable span)
computed in the pre-state — i.e. before the writer cursor advances — with a
copy of the tags, and notifies the reader; the cursor advance is visible only
in the post-state. -/
theorem produce_tags_attributed_at_pre_advance_backlog {Tag : Type}
    (st : EngineState Tag) (n : Nat) (tags : List Tag)
    (hn : 0 < n) (hle : n ≤ st.writerLastSpace) :
    ∃ st2, Writer.produce st n tags = .ok st2
      ∧ (∀ j r, st.readers.get? j = some r →
          st2.readers.get? j = some
            { r with
                metaAdds := r.metaAdds ++
                  [(readerSpace st.capacity st.writerOffset st.writerAb r.offset r.ab,
                    tags)]
                readerNotifies := r.readerNotifies + 1 })
      ∧ st2.writerOffset = (st.writerOffset + n) % st.capacity
      ∧ st2.writerAb =
          (if st.capacity ≤ st.writerOffset + n then !st.writerAb else st.writerAb) := by
  rw [Writer.produce, if_neg (by omega), if_neg (by omega)]
  refine ⟨_, rfl, ?_, rfl, rfl⟩
  intro j r hget
  show (st.readers.map _).get? j = _
  rw [List.get?_map, hget]
  rfl

/-- Witness for C7: at the sample state the single reader's backlog is 2, and
that is the offset recorded with the tags. -/
theorem produce_tags_attributed_at_pre_advance_backlog_witness :
    ∃ st2, Writer.produce sampleState 1 [()] = .ok st2
      ∧ (∀ j r, sampleState.readers.get? j = some r →
          st2.readers.get? j = some
            { r with
                metaAdds := r.metaAdds ++
                  [(readerSpace sampleState.capacity sampleState.writerOffset
                      sampleState.writerAb r.offset r.ab, [()])]
                readerNotifies := r.readerNotifies + 1 })
      ∧ st2.writerOffset = (sampleState.writerOffset + 1) % sampleState.capacity
      ∧ st2.writerAb =
          (if sampleState.capacity ≤ sampleState.writerOffset + 1 then !sampleState.writerAb
           else sampleState.writerAb) :=
  produce_tags_attributed_at_pre_advance_backlog sampleState 1 [()] (by decide) (by decide)

/-! ## Claim C3 -/

theorem spaceLoop_offsets {Tag : Type} (capacity wOff : Nat) (wAb : Bool) (arm : Bool)
    (rs : List (ReaderState Tag)) :
    ∀ space : Nat,
      (spaceLoop capacity wOff wAb arm rs space).2.map (fun r => r.offset) =
        rs.map (fun r => r.offset) := by
  induction rs with
  | nil => intro space; rfl
  | cons r rs ih =>
    intro space
    by_cases hs : writerSpace capacity wOff wAb r.offset r.ab = 0
    · cases arm <;> simp [spaceLoop, hs]
    · simp only [spaceLoop]
      rw [if_neg hs]
      show r.offset :: (spaceLoop capacity wOff wAb arm rs _).2.map (fun r => r.offset) = _
      rw [ih]
      rfl

theorem offset_mem_of_map_eq {Tag : Type} {rs rs2 : List (ReaderState Tag)}
    (h : rs2.map (fun r => r.offset) = rs.map (fun r => r.offset)) :
    ∀ r2 ∈ rs2, ∃ r ∈ rs, r2.offset = r.offset := by
  intro r2 hmem
  have : r2.offset ∈ rs2.map (fun r => r.offset) := List.mem_map_of_mem _ hmem
  rw [h] at this
  obtain ⟨r, hr, heq⟩ := List.mem_map.mp this
  exact ⟨r, hr, heq.symm⟩

theorem map_set_eq {α β : Type} (f : α → β) :
    ∀ (l : List α) (i : Nat) (x : α), (∀ r, l.get? i = some r → f x = f r) →
      (l.set i x).map f = l.map f := by
  intro l
  induction l with
  | nil => intro i x _; rfl
  | cons a l ih =>
    intro i x h
    cases i with
    | zero =>
      show f x :: l.map f = f a :: l.map f
      rw [h a rfl]
    | succ i =>
      show f a :: (l.set i x).map f = f a :: l.map f
      rw [ih i x h]

/-- The coordination-state part of `Reader::slice` only touches `readerArms`
and `lastSpace` of reader `i`: reader offsets and the writer fields are
unchanged. -/
theorem readerSliceState_fields {Tag : Type} (st : EngineState Tag) (i : Nat) (arm : Bool) :
    (Reader.sliceState st i arm).readers.map (fun r => r.offset) =
        st.readers.map (fun r => r.offset)
    ∧ (Reader.sliceState st i arm).capacity = st.capacity
    ∧ (Reader.sliceState st i arm).writerOffset = st.writerOffset
    ∧ (Reader.sliceState st i arm).writerAb = st.writerAb
    ∧ (Reader.sliceState st i arm).writerDone = st.writerDone := by
  rcases hget : st.readers.get? i with _ | r
  · have hstate : Reader.sliceState st i arm = st := by
      simp only [Reader.sliceState, Reader.slice, Reader.spaceAndOffsetAndMeta, hget,
        setReader]
      split <;> rfl
    rw [hstate]
    exact ⟨rfl, rfl, rfl, rfl, rfl⟩
  · simp only [Reader.sliceState, Reader.slice, Reader.spaceAndOffsetAndMeta, hget]
    by_cases harm : readerSpace st.capacity st.writerOffset st.writerAb r.offset r.ab = 0
        ∧ arm = true
    · rw [if_pos harm]
      have hget2 : (st.readers.set i { r with readerArms := r.readerArms + 1 }).get? i =
          some { r with readerArms := r.readerArms + 1 } :=
        List.get?_set_eq_of_lt _ (List.get?_eq_some.mp hget).1
      simp only [setReader, hget2]
      constructor
      · split <;>
        · show ((st.readers.set i _).set i _).map _ = _
          rw [map_set_eq _ _ i _ (fun x hx => by
            rw [hget2] at hx
            cases hx
            rfl)]
          rw [map_set_eq _ _ i _ (fun x hx => by
            rw [hget] at hx
            cases hx
            rfl)]
      · split <;> exact ⟨rfl, rfl, rfl, rfl⟩
    · rw [if_neg harm]
      simp only [setReader, hget]
      constructor
      · split <;>
        · show (st.readers.set i _).map _ = _
          rw [map_set_eq _ _ i _ (fun x hx => by
            rw [hget] at hx
            cases hx
            rfl)]
      · split <;> exact ⟨rfl, rfl, rfl, rfl⟩

/-- C3: `produce`/`consume` advance the respective cursor to
`(off + n) % capacity` and flip its generation bit exactly when the raw sum
`off + n` reaches or exceeds the capacity; consequently, starting from the
initial writer cursor `(0, false)`, the writer offset and every reader offset
stay in `[0, capacity)` in every reachable state. -/
theorem cursor_advance_mod_capacity_and_offsets_in_range (Tag : Type) :
    ((initState Tag 1).writerOffset = 0 ∧ (initState Tag 1).writerAb = false)
    ∧ (∀ (st : EngineState Tag) (n : Nat) (tags : List Tag),
        0 < n → n ≤ st.writerLastSpace →
        ∃ st2, Writer.produce st n tags = .ok st2
          ∧ st2.writerOffset = (st.writerOffset + n) % st.capacity
          ∧ st2.writerAb =
              (if st.capacity ≤ st.writerOffset + n then !st.writerAb else st.writerAb))
    ∧ (∀ (st : EngineState Tag) (i n : Nat) (r : ReaderState Tag),
        st.readers.get? i = some r → 0 < n → n ≤ r.lastSpace →
        ∃ st2 r2, Reader.consume st i n = .ok st2 ∧ st2.readers.get? i = some r2
          ∧ r2.offset = (r.offset + n) % st.capacity
          ∧ r2.ab = (if st.capacity ≤ r.offset + n then !r.ab else r.ab))
    ∧ (∀ st : EngineState Tag, Reachable Tag st →
        0 < st.capacity ∧ st.writerOffset < st.capacity
          ∧ ∀ r ∈ st.readers, r.offset < st.capacity) := by
  refine ⟨⟨rfl, rfl⟩, ?_, ?_, ?_⟩
  · intro st n tags hn hle
    rw [Writer.produce, if_neg (by omega), if_neg (by omega)]
    exact ⟨_, rfl, rfl, rfl⟩
  · intro st i n r hget hn hle
    have hlen : i < st.readers.length := (List.get?_eq_some.mp hget).1
    rw [Reader.consume, if_neg (by omega)]
    simp only [hget]
    rw [if_neg (by omega)]
    refine ⟨_, { r with
        lastSpace := r.lastSpace - n
        metaConsumes := r.metaConsumes ++ [n]
        ab := if st.capacity ≤ r.offset + n then !r.ab else r.ab
        offset := (r.offset + n) % st.capacity
        writerNotifies := r.writerNotifies + 1 }, rfl, ?_, rfl, rfl⟩
    exact List.get?_set_eq_of_lt _ hlen
  · intro st hst
    induction hst with
    | init capacity h =>
      exact ⟨h, h, fun r hr => absurd hr (List.not_mem_nil r)⟩
    | addReader _ ih =>
      obtain ⟨hc, hw, hr⟩ := ih
      refine ⟨hc, hw, ?_⟩
      intro r hmem
      rcases List.mem_append.mp hmem with h | h
      · exact hr r h
      · rcases List.mem_singleton.mp h with rfl
        exact hw
    | writerSlice arm _ ih =>
      obtain ⟨hc, hw, hr⟩ := ih
      refine ⟨hc, hw, ?_⟩
      intro r2 hmem
      obtain ⟨r, hrm, heq⟩ := offset_mem_of_map_eq
        (spaceLoop_offsets _ _ _ arm _ _) r2 hmem
      rw [heq]
      exact hr r hrm
    | readerSlice i arm _ ih =>
      obtain ⟨hc, hw, hr⟩ := ih
      rename_i st1 _
      obtain ⟨hmap, hcap, hwo, _, _⟩ := readerSliceState_fields st1 i arm
      rw [hcap, hwo]
      refine ⟨hc, hw, ?_⟩
      intro r2 hmem
      obtain ⟨r, hrm, heq⟩ := offset_mem_of_map_eq hmap r2 hmem
      rw [heq]
      exact hr r hrm
    | produce n tags _ heq ih =>
      rename_i st1 st2 _
      obtain ⟨hc, hw, hr⟩ := ih
      by_cases hn0 : n = 0
      · rw [Writer.produce, if_pos hn0] at heq
        cases Except.ok.inj heq
        exact ⟨hc, hw, hr⟩
      · by_cases hlt : st1.writerLastSpace < n
        · rw [Writer.produce, if_neg hn0, if_pos hlt] at heq
          exact Except.noConfusion heq
        · rw [Writer.produce, if_neg hn0, if_neg hlt] at heq
          cases Except.ok.inj heq
          refine ⟨hc, Nat.mod_lt _ hc, ?_⟩
          intro r2 hmem
          obtain ⟨r, hrm, hre⟩ := List.mem_map.mp hmem
          rw [← hre]
          exact hr r hrm
    | consume i n _ heq ih =>
      rename_i st1 st2 _
      obtain ⟨hc, hw, hr⟩ := ih
      by_cases hn0 : n = 0
      · rw [Reader.consume, if_pos hn0] at heq
        cases Except.ok.inj heq
        exact ⟨hc, hw, hr⟩
      · rw [Reader.consume, if_neg hn0] at heq
        rcases hget : st1.readers.get? i with _ | r <;> simp only [hget] at heq
        · exact Except.noConfusion heq
        · by_cases hlt : r.lastSpace < n
          · rw [if_pos hlt] at heq
            exact Except.noConfusion heq
          · rw [if_neg hlt] at heq
            cases Except.ok.inj heq
            refine ⟨hc, hw, ?_⟩
            intro r2 hmem
            rcases List.mem_or_eq_of_mem_set hmem with h | h
            · exact hr r2 h
            · rw [h]
              exact Nat.mod_lt _ hc
    | dropWriter _ ih =>
      obtain ⟨hc, hw, hr⟩ := ih
      refine ⟨hc, hw, ?_⟩
      intro r2 hmem
      obtain ⟨r, hrm, heq⟩ := List.mem_map.mp hmem
      rw [← heq]
      exact hr r hrm
    | dropReader i _ ih =>
      obtain ⟨hc, hw, hr⟩ := ih
      exact ⟨hc, hw, fun r hmem => hr r (List.eraseIdx_subset _ i hmem)⟩

/-- Witness for C3: a concrete produce step at the sample state, and the
offset invariant at a freshly constructed engine. -/
theorem cursor_advance_mod_capacity_and_offsets_in_range_witness :
    (∃ st2, Writer.produce sampleState 2 ([] : List Unit) = .ok st2
      ∧ st2.writerOffset = (sampleState.writerOffset + 2) % sampleState.capacity
      ∧ st2.writerAb =
          (if sampleState.capacity ≤ sampleState.writerOffset + 2 then !sampleState.writerAb
           else sampleState.writerAb))
    ∧ (0 < (initState Unit 4).capacity
      ∧ (initState Unit 4).writerOffset < (initState Unit 4).capacity
      ∧ ∀ r ∈ (initState Unit 4).readers, r.offset < (initState Unit 4).capacity) :=
  ⟨(cursor_advance_mod_capacity_and_offsets_in_range Unit).2.1 sampleState 2 [] (by decide)
      (by decide),
   (cursor_advance_mod_capacity_and_offsets_in_range Unit).2.2.2 (initState Unit 4)
      (Reachable.init 4 (by decide))⟩

/-! ## Claim C4 -/

/-- Advancing the reader cursor by `k ≤ span` (as `Reader::consume` does)
shrinks the readable span by exactly `k`, keeps the offset in range, and
preserves the cursor-geometry invariant. -/
theorem readerSpace_advance (c wOff rOff k : Nat) (wAb rAb : Bool)
    (hc : 0 < c) (hw : wOff < c) (hr : rOff < c)
    (hinv : if rAb = wAb then rOff ≤ wOff else wOff ≤ rOff)
    (hk : k ≤ readerSpace c wOff wAb rOff rAb) :
    readerSpace c wOff wAb ((rOff + k) % c) (if c ≤ rOff + k then !rAb else rAb)
        = readerSpace c wOff wAb rOff rAb - k
    ∧ (rOff + k) % c < c
    ∧ (if (if c ≤ rOff + k then !rAb else rAb) = wAb then (rOff + k) % c ≤ wOff
       else wOff ≤ (rOff + k) % c) := by
  have hsle : readerSpace c wOff wAb rOff rAb ≤ c :=
    readerSpace_le wAb rAb hw (le_of_lt hr)
  rcases Nat.lt_or_ge (rOff + k) c with hlt | hge
  · have hmod : (rOff + k) % c = rOff + k := Nat.mod_eq_of_lt hlt
    rw [hmod, if_neg (by omega)]
    refine ⟨?_, hlt, ?_⟩
    · unfold readerSpace at hk ⊢
      split_ifs at hk hinv ⊢ <;> first | omega | (exfalso; simp_all)
    · unfold readerSpace at hk
      split_ifs at hk hinv ⊢ <;> first | omega | (exfalso; simp_all)
  · have h2 : rOff + k - c < c := by omega
    have hmod : (rOff + k) % c = rOff + k - c := by
      rw [Nat.mod_eq_sub_mod hge, Nat.mod_eq_of_lt h2]
    rw [hmod, if_pos hge]
    refine ⟨?_, h2, ?_⟩
    · unfold readerSpace at hk ⊢
      split_ifs at hk hinv ⊢ <;> first | omega | (exfalso; simp_all)
    · unfold readerSpace at hk
      split_ifs at hk hinv ⊢ <;> first | omega | (exfalso; simp_all)

/-- The first `m` items of the doubled-mapping window at `offset` are the
ring items at positions `offset, …, offset+m-1` modulo the capacity: the
aliasing payoff of the double mapping, item by item. -/
theorem take_sliceWithOffset_eq_wrapSeg {T : Type} (buf : List T) (d : T)
    (capacity offset m : Nat) (hbuf : buf.length = capacity) (hoff : offset < capacity)
    (hm : m ≤ capacity) :
    (sliceWithOffset buf capacity offset).take m = wrapSeg buf d capacity offset m := by
  apply List.ext_getElem
  · rw [length_take_sliceWithOffset buf capacity offset m hbuf (le_of_lt hoff) hm]
    simp [wrapSeg]
  · intro j h1 h2
    have hj : j < m := by
      have := length_take_sliceWithOffset buf capacity offset m hbuf (le_of_lt hoff) hm
      omega
    have hlen2 : (buf ++ buf).length = capacity + capacity := by
      simp [hbuf]
    have hoj : offset + j < capacity + capacity := by omega
    have hidx : offset + j < (buf ++ buf).length := by omega
    have hL : ((sliceWithOffset buf capacity offset).take m)[j] =
        getElem (buf ++ buf) (offset + j) hidx := by
      simp only [sliceWithOffset]
      rw [List.getElem_take, List.getElem_take, List.getElem_drop]
    have hR : getElem (wrapSeg buf d capacity offset m) j h2 =
        buf.getD ((offset + j) % capacity) d := by
      simp only [wrapSeg]
      rw [List.getElem_map, List.getElem_range]
    rw [hL, hR]
    rcases Nat.lt_or_ge (offset + j) capacity with hcase | hcase
    · have hmod : (offset + j) % capacity = offset + j := Nat.mod_eq_of_lt hcase
      rw [hmod, List.getElem_append_left (by omega),
        List.getD_eq_getElem buf d (by omega)]
    · have hmod : (offset + j) % capacity = offset + j - capacity := by
        rw [Nat.mod_eq_sub_mod hcase, Nat.mod_eq_of_lt (by omega)]
      rw [hmod, List.getElem_append_right (by omega),
        List.getD_eq_getElem buf d (by omega)]
      congr 1
      omega

/-- Reading `a` items and then `b` items from the ring is reading `a + b`
items: the second window starts at the advanced (mod-capacity) offset. -/
theorem wrapSeg_add {T : Type} (buf : List T) (d : T) (c offset a b : Nat) :
    wrapSeg buf d c offset (a + b) =
      wrapSeg buf d c offset a ++ wrapSeg buf d c ((offset + a) % c) b := by
  unfold wrapSeg
  rw [List.range_add, List.map_append, List.map_map]
  congr 1
  apply List.map_congr_left
  intro j _
  show buf.getD ((offset + (a + j)) % c) d = buf.getD (((offset + a) % c + j) % c) d
  rw [Nat.mod_add_mod, Nat.add_assoc]

/-- `Reader::slice` (without arming) when the reader has data or the writer
is not done: the window of the readable span at the reader offset, with the
`last_space` shadow updated. -/
theorem reader_slice_some_shape {T Tag : Type} (buf : List T) (st : EngineState Tag)
    (i : Nat) (r : ReaderState Tag) (hget : st.readers.get? i = some r)
    (hcond : ¬ (readerSpace st.capacity st.writerOffset st.writerAb r.offset r.ab = 0
      ∧ st.writerDone = true)) :
    Reader.slice buf st i false =
      (some ((sliceWithOffset buf st.capacity r.offset).take
          (readerSpace st.capacity st.writerOffset st.writerAb r.offset r.ab), r.metaAdds),
       { st with readers := st.readers.set i { r with lastSpace := readerSpace st.capacity st.writerOffset st.writerAb r.offset r.ab } }) := by
  have hres : Reader.spaceAndOffsetAndMeta st i false =
      (readerSpace st.capacity st.writerOffset st.writerAb r.offset r.ab, r.offset,
        st.writerDone, r.metaAdds, st) := by
    simp only [Reader.spaceAndOffsetAndMeta, hget]
    rw [if_neg (by simp)]
  simp only [Reader.slice, hres, setReader, hget]
  rw [if_neg hcond]

/-- `Reader::slice` when the readable span is `0` and the writer is done:
`None`. -/
theorem reader_slice_none_shape {T Tag : Type} (buf : List T) (st : EngineState Tag)
    (i : Nat) (r : ReaderState Tag) (hget : st.readers.get? i = some r)
    (hcond : readerSpace st.capacity st.writerOffset st.writerAb r.offset r.ab = 0
      ∧ st.writerDone = true) :
    Reader.slice buf st i false =
      (none,
       { st with readers := st.readers.set i { r with lastSpace := readerSpace st.capacity st.writerOffset st.writerAb r.offset r.ab } }) := by
  have hres : Reader.spaceAndOffsetAndMeta st i false =
      (readerSpace st.capacity st.writerOffset st.writerAb r.offset r.ab, r.offset,
        st.writerDone, r.metaAdds, st) := by
    simp only [Reader.spaceAndOffsetAndMeta, hget]
    rw [if_neg (by simp)]
  simp only [Reader.slice, hres, setReader, hget]
  rw [if_pos hcond]

/-- `Reader::slice` returns `None` exactly when the readable span is `0` and
the writer is done (for any arming mode). -/
theorem reader_slice_none_iff {T Tag : Type} (buf : List T) (st : EngineState Tag)
    (i : Nat) (r : ReaderState Tag) (arm : Bool) (hget : st.readers.get? i = some r) :
    (Reader.slice buf st i arm).1 = none ↔
      readerSpace st.capacity st.writerOffset st.writerAb r.offset r.ab = 0
        ∧ st.writerDone = true := by
  constructor
  · intro h
    by_contra hc
    simp only [Reader.slice, Reader.spaceAndOffsetAndMeta, hget] at h
    rw [if_neg hc] at h
    simp at h
  · intro hc
    simp only [Reader.slice, Reader.spaceAndOffsetAndMeta, hget]
    rw [if_pos hc]

/-- `Reader::consume` with `0 < k ≤ last_space`: the exact resulting state. -/
theorem consume_shape_full {Tag : Type} (st : EngineState Tag) (i k : Nat)
    (r : ReaderState Tag) (hget : st.readers.get? i = some r) (hk : k ≤ r.lastSpace)
    (hkpos : 0 < k) :
    Reader.consume st i k = .ok
      { st with readers := st.readers.set i { r with lastSpace := r.lastSpace - k, metaConsumes := r.metaConsumes ++ [k], ab := if st.capacity ≤ r.offset + k then !r.ab else r.ab, offset := (r.offset + k) % st.capacity, writerNotifies := r.writerNotifies + 1 } } := by
  rw [Reader.consume, if_neg (by omega)]
  simp only [hget]
  rw [if_neg (by omega)]

/-- A reader session as in `readRun`, started with backlog covering the
consume amounts: it reads exactly the ring items at the reader's offsets, the
engine fields the session does not own are untouched, and the reader ends up
advanced by the total with the span shrunk by the total. -/
theorem readRun_spec {T Tag : Type} (buf : List T) (d : T) (i : Nat) :
    ∀ (ks : List Nat) (st : EngineState Tag) (r : ReaderState Tag),
      st.readers.get? i = some r →
      0 < st.capacity → buf.length = st.capacity → st.writerOffset < st.capacity →
      r.offset < st.capacity →
      (if r.ab = st.writerAb then r.offset ≤ st.writerOffset
       else st.writerOffset ≤ r.offset) →
      ks.sum ≤ readerSpace st.capacity st.writerOffset st.writerAb r.offset r.ab →
      (readRun buf i st ks).1 = wrapSeg buf d st.capacity r.offset ks.sum
      ∧ ∃ r2, (readRun buf i st ks).2.readers.get? i = some r2
          ∧ (readRun buf i st ks).2.capacity = st.capacity
          ∧ (readRun buf i st ks).2.writerOffset = st.writerOffset
          ∧ (readRun buf i st ks).2.writerAb = st.writerAb
          ∧ (readRun buf i st ks).2.writerDone = st.writerDone
          ∧ r2.offset = (r.offset + ks.sum) % st.capacity
          ∧ readerSpace st.capacity st.writerOffset st.writerAb r2.offset r2.ab =
              readerSpace st.capacity st.writerOffset st.writerAb r.offset r.ab - ks.sum
          ∧ (if r2.ab = st.writerAb then r2.offset ≤ st.writerOffset
             else st.writerOffset ≤ r2.offset)
          ∧ r2.offset < st.capacity := by
  intro ks
  induction ks with
  | nil =>
    intro st r hget hc hbuf hw hr hinv hsum
    refine ⟨rfl, r, hget, rfl, rfl, rfl, rfl, ?_, ?_, hinv, hr⟩
    · rw [List.sum_nil, Nat.add_zero, Nat.mod_eq_of_lt hr]
    · rw [List.sum_nil, Nat.sub_zero]
  | cons k ks ih =>
    intro st r hget hc hbuf hw hr hinv hsum
    have hsum_cons : (k :: ks).sum = k + ks.sum := List.sum_cons
    have hlen : i < st.readers.length := (List.get?_eq_some.mp hget).1
    have hs_le : readerSpace st.capacity st.writerOffset st.writerAb r.offset r.ab ≤
        st.capacity := readerSpace_le st.writerAb r.ab hw (le_of_lt hr)
    by_cases hnone : readerSpace st.capacity st.writerOffset st.writerAb r.offset r.ab = 0
        ∧ st.writerDone = true
    · have hk0 : k = 0 ∧ ks.sum = 0 := by omega
      have hslice := reader_slice_none_shape buf st i r hget hnone
      have hrun : readRun buf i st (k :: ks) =
          ([], { st with readers := st.readers.set i { r with lastSpace := readerSpace st.capacity st.writerOffset st.writerAb r.offset r.ab } }) := by
        simp only [readRun, hslice]
      rw [hrun]
      refine ⟨?_, { r with lastSpace := readerSpace st.capacity st.writerOffset st.writerAb r.offset r.ab }, ?_, rfl, rfl, rfl, rfl, ?_, ?_, hinv, hr⟩
      · rw [hsum_cons, hk0.1, hk0.2]
        rfl
      · exact List.get?_set_eq_of_lt _ hlen
      · rw [hsum_cons, hk0.1, hk0.2, Nat.add_zero, Nat.mod_eq_of_lt hr]
      · rw [hsum_cons, hk0.1, hk0.2, Nat.sub_zero]
    · have hks : k ≤ readerSpace st.capacity st.writerOffset st.writerAb r.offset r.ab := by
        omega
      have hslice := reader_slice_some_shape buf st i r hget hnone
      set r1 : ReaderState Tag :=
        { r with lastSpace := readerSpace st.capacity st.writerOffset st.writerAb r.offset r.ab } with hr1
      set st1 : EngineState Tag := { st with readers := st.readers.set i r1 } with hst1
      have hget1 : st1.readers.get? i = some r1 := List.get?_set_eq_of_lt _ hlen
      have hlen1 : i < st1.readers.length := by
        show i < (st.readers.set i r1).length
        rw [List.length_set]
        exact hlen
      by_cases hkz : k = 0
      · subst hkz
        have hcons : Reader.consume st1 i 0 = .ok st1 := by
          rw [Reader.consume, if_pos rfl]
        have hrun : readRun buf i st (0 :: ks) =
            (((sliceWithOffset buf st.capacity r.offset).take
                (readerSpace st.capacity st.writerOffset st.writerAb r.offset r.ab)).take 0
              ++ (readRun buf i st1 ks).1, (readRun buf i st1 ks).2) := by
          simp only [readRun, hslice, hcons]
        obtain ⟨hout, r2, hget2, hcap2, hwo2, hwa2, hwd2, hoff2, hspan2, hinv2, hlt2⟩ :=
          ih st1 r1 hget1 hc hbuf hw hr hinv (by
            show ks.sum ≤ readerSpace st.capacity st.writerOffset st.writerAb r.offset r.ab
            omega)
        rw [hrun]
        refine ⟨?_, r2, hget2, hcap2, hwo2, hwa2, hwd2, ?_, ?_, hinv2, hlt2⟩
        · rw [List.take_zero, List.nil_append, hout, hsum_cons, Nat.zero_add]
        · rw [hoff2, hsum_cons, Nat.zero_add]
        · rw [hspan2, hsum_cons, Nat.zero_add]
      · have hkpos : 0 < k := by omega
        have hadv := readerSpace_advance st.capacity st.writerOffset r.offset k
          st.writerAb r.ab hc hw hr hinv hks
        have hcons := consume_shape_full st1 i k r1 hget1 (by
          show k ≤ readerSpace st.capacity st.writerOffset st.writerAb r.offset r.ab
          exact hks) hkpos
        set r2p : ReaderState Tag :=
          { r1 with lastSpace := r1.lastSpace - k, metaConsumes := r1.metaConsumes ++ [k], ab := if st1.capacity ≤ r1.offset + k then !r1.ab else r1.ab, offset := (r1.offset + k) % st1.capacity, writerNotifies := r1.writerNotifies + 1 } with hr2p
        set st2 : EngineState Tag := { st1 with readers := st1.readers.set i r2p } with hst2
        have hrun : readRun buf i st (k :: ks) =
            (((sliceWithOffset buf st.capacity r.offset).take
                (readerSpace st.capacity st.writerOffset st.writerAb r.offset r.ab)).take k
              ++ (readRun buf i st2 ks).1, (readRun buf i st2 ks).2) := by
          simp only [readRun, hslice, hcons]
        have hget2p : st2.readers.get? i = some r2p := List.get?_set_eq_of_lt _ hlen1
        have hoffp : r2p.offset = (r.offset + k) % st.capacity := rfl
        have habp : r2p.ab = (if st.capacity ≤ r.offset + k then !r.ab else r.ab) := rfl
        have hspanp : readerSpace st.capacity st.writerOffset st.writerAb r2p.offset r2p.ab
            = readerSpace st.capacity st.writerOffset st.writerAb r.offset r.ab - k := by
          rw [hoffp, habp]
          exact hadv.1
        have hltp : r2p.offset < st.capacity := by
          rw [hoffp]
          exact hadv.2.1
        have hinvp : (if r2p.ab = st.writerAb then r2p.offset ≤ st.writerOffset
            else st.writerOffset ≤ r2p.offset) := by
          rw [hoffp, habp]
          exact hadv.2.2
        obtain ⟨hout, r2, hget2, hcap2, hwo2, hwa2, hwd2, hoff2, hspan2, hinv2, hlt2⟩ :=
          ih st2 r2p hget2p hc hbuf hw hltp hinvp (by rw [hspanp]; omega)
        rw [hrun]
        refine ⟨?_, r2, hget2, hcap2, hwo2, hwa2, hwd2, ?_, ?_, hinv2, hlt2⟩
        · rw [List.take_take, min_eq_left hks,
            take_sliceWithOffset_eq_wrapSeg buf d st.capacity r.offset k hbuf hr
              (le_trans hks hs_le),
            hout, hoffp, hsum_cons, wrapSeg_add]
        · rw [hoff2, hoffp, Nat.mod_add_mod, hsum_cons, Nat.add_assoc]
        · rw [hspan2, hspanp, hsum_cons]
          omega

/-- C4: dropping the writer sets `writer_done` and notifies every reader's
reader-notifier; a reader with backlog `b` at that moment then reads exactly
the `b` remaining ring items, in order, across any session of slice/consume
calls whose amounts sum to `b`, after which `slice` returns `None`; and
`slice` returns `None` exactly when the readable span is `0` and the writer
is done. -/
theorem drop_writer_backlog_then_none {T Tag : Type} (buf : List T) (d : T)
    (st : EngineState Tag) (i : Nat) (r : ReaderState Tag)
    (hget : st.readers.get? i = some r)
    (hc : 0 < st.capacity) (hbuf : buf.length = st.capacity)
    (hw : st.writerOffset < st.capacity) (hr : r.offset < st.capacity)
    (hinv : if r.ab = st.writerAb then r.offset ≤ st.writerOffset
      else st.writerOffset ≤ r.offset) :
    ((Writer.dropWriter st).writerDone = true
      ∧ (Writer.dropWriter st).readers =
          st.readers.map (fun x => { x with readerNotifies := x.readerNotifies + 1 }))
    ∧ (∀ ks : List Nat,
        ks.sum = readerSpace st.capacity st.writerOffset st.writerAb r.offset r.ab →
        (readRun buf i (Writer.dropWriter st) ks).1 =
            wrapSeg buf d st.capacity r.offset
              (readerSpace st.capacity st.writerOffset st.writerAb r.offset r.ab)
        ∧ ∀ arm : Bool,
            (Reader.slice buf (readRun buf i (Writer.dropWriter st) ks).2 i arm).1 = none)
    ∧ (∀ (st2 : EngineState Tag) (j : Nat) (r2 : ReaderState Tag) (arm : Bool),
        st2.readers.get? j = some r2 →
        ((Reader.slice buf st2 j arm).1 = none ↔
          readerSpace st2.capacity st2.writerOffset st2.writerAb r2.offset r2.ab = 0
            ∧ st2.writerDone = true)) := by
  refine ⟨⟨rfl, rfl⟩, ?_, fun st2 j r2 arm h => reader_slice_none_iff buf st2 j r2 arm h⟩
  intro ks hsum
  set rD : ReaderState Tag := { r with readerNotifies := r.readerNotifies + 1 } with hrD
  have hgetD : (Writer.dropWriter st).readers.get? i = some rD := by
    show (st.readers.map _).get? i = _
    rw [List.get?_map, hget]
    rfl
  have hspec := readRun_spec buf d i ks (Writer.dropWriter st) rD hgetD hc hbuf hw hr hinv
    (le_of_eq hsum)
  obtain ⟨hout, r2, hget2, hcap2, hwo2, hwa2, hwd2, hoff2, hspan2, hinv2, hlt2⟩ := hspec
  have hsame : readerSpace (Writer.dropWriter st).capacity
      (Writer.dropWriter st).writerOffset (Writer.dropWriter st).writerAb
      rD.offset rD.ab =
      readerSpace st.capacity st.writerOffset st.writerAb r.offset r.ab := rfl
  constructor
  · rw [hout, hsum]
    rfl
  · intro arm
    refine (reader_slice_none_iff buf _ i r2 arm hget2).mpr ⟨?_, ?_⟩
    · rw [hcap2, hwa2, hwo2, hspan2, hsame, ← hsum]
      omega
    · rw [hwd2]
      rfl

/-- Witness for C4 at the sample state (backlog 2, capacity 4): consuming in
two steps of 1 reads the ring items at positions 1 and 2, then `slice` is
`None`. -/
theorem drop_writer_backlog_then_none_witness :
    ((Writer.dropWriter sampleState).writerDone = true
      ∧ (Writer.dropWriter sampleState).readers =
          sampleState.readers.map (fun x => { x with readerNotifies := x.readerNotifies + 1 }))
    ∧ (∀ ks : List Nat,
        ks.sum = readerSpace sampleState.capacity sampleState.writerOffset
            sampleState.writerAb sampleReader.offset sampleReader.ab →
        (readRun sampleBuf 0 (Writer.dropWriter sampleState) ks).1 =
            wrapSeg sampleBuf 0 sampleState.capacity sampleReader.offset
              (readerSpace sampleState.capacity sampleState.writerOffset
                sampleState.writerAb sampleReader.offset sampleReader.ab)
        ∧ ∀ arm : Bool,
            (Reader.slice sampleBuf
              (readRun sampleBuf 0 (Writer.dropWriter sampleState) ks).2 0 arm).1 = none)
    ∧ (∀ (st2 : EngineState Unit) (j : Nat) (r2 : ReaderState Unit) (arm : Bool),
        st2.readers.get? j = some r2 →
        ((Reader.slice sampleBuf st2 j arm).1 = none ↔
          readerSpace st2.capacity st2.writerOffset st2.writerAb r2.offset r2.ab = 0
            ∧ st2.writerDone = true)) :=
  drop_writer_backlog_then_none sampleBuf 0 sampleState 0 sampleReader (by decide)
    (by decide) (by decide) (by decide) (by decide) (by decide)

end Vmcircbuffer
